import Mathlib

/-!
Verification of the policy-optimization engine of the IsaacDrones repository
(`omni_drones/learning/...`) against its natural-language specification.

The numeric code (PyTorch tensors) is shallowly embedded over `ℚ`:
per-element tensor operations become functions on rationals, batched tensors
become lists, and `torch.mean` / `torch.clamp` / `torch.min` become the
corresponding list/rational operations.  Randomness (e.g. `torch.randperm`,
`torch.randint`) is modelled by passing the drawn value as an explicit
argument, constrained to the range the sampler would produce.
-/

namespace IsaacDrones

/-- Mean of a list of rationals; `torch.mean` on a flattened tensor. -/
def meanQ (l : List ℚ) : ℚ := l.sum / l.length

/-- `torch.clamp(x, lo, hi)`: PyTorch applies the lower bound first,
then the upper bound. -/
def clampQ (x lo hi : ℚ) : ℚ := min (max x lo) hi

/-! ## PPO policy loss (claim C1)

Embedded from `PPOPolicy._update` (ppo/ppo.py, lines 158-162),
`MAPPOPolicy.update_actor` (mappo.py, lines 220-226), and
`PPOAdaptivePolicy._update` (ppo/ppo_adapt.py, lines 299-303).
-/

/-- `ratio = torch.exp(log_probs - sample_log_prob)` elementwise.
The exponential is abstracted as the function argument `expF`, applied to
each per-sample log-probability difference. -/
def ratios (expF : ℚ → ℚ) (logProbs logProbsOld : List ℚ) : List ℚ :=
  List.zipWith (fun a b => expF (a - b)) logProbs logProbsOld

/-- `PPOPolicy._update` policy loss (ppo/ppo.py):
`surr1 = adv * ratio`, `surr2 = adv * ratio.clamp(1-clip, 1+clip)`,
`policy_loss = - torch.mean(torch.min(surr1, surr2)) * action_dim`. -/
def ppo_policy_loss (clip : ℚ) (actionDim : ℕ) (ratio adv : List ℚ) : ℚ :=
  - meanQ (List.zipWith
      (fun a r => min (a * r) (a * clampQ r (1 - clip) (1 + clip))) adv ratio)
    * actionDim

/-- `MAPPOPolicy.update_actor` policy loss (mappo.py):
`surr1 = ratio * advantages`, `surr2 = clamp(ratio, 1-clip, 1+clip) * advantages`,
`policy_loss = - torch.mean(torch.min(surr1, surr2) * act_dim)`. -/
def mappo_policy_loss (clip : ℚ) (actDim : ℕ) (ratio adv : List ℚ) : ℚ :=
  - meanQ (List.zipWith
      (fun r a =>
        min (r * a) (clampQ r (1 - clip) (1 + clip) * a) * actDim) ratio adv)

/-- `PPOAdaptivePolicy._update` policy loss (ppo/ppo_adapt.py):
same shape as the plain-PPO variant. -/
def ppo_adapt_policy_loss (clip : ℚ) (actionDim : ℕ) (ratio adv : List ℚ) : ℚ :=
  - meanQ (List.zipWith
      (fun a r => min (a * r) (a * clampQ r (1 - clip) (1 + clip))) adv ratio)
    * actionDim

/-- The spec's formula (§4.6 step 3):
`surrogate = min(ratio * adv, clip(ratio, 1-ε, 1+ε) * adv)`;
policy loss = `-mean(surrogate) * action_dim`. -/
def spec_policy_loss (clip : ℚ) (actionDim : ℕ) (ratio adv : List ℚ) : ℚ :=
  - meanQ (List.zipWith
      (fun r a => min (r * a) (clampQ r (1 - clip) (1 + clip) * a)) ratio adv)
    * actionDim

lemma zipWith_ext {α β γ : Type} (f g : α → β → γ) (l1 : List α) (l2 : List β)
    (h : ∀ a b, f a b = g a b) : List.zipWith f l1 l2 = List.zipWith g l1 l2 := by
  have hfg : f = g := funext fun a => funext fun b => h a b
  rw [hfg]

lemma meanQ_map_mul_right (l : List ℚ) (d : ℚ) :
    meanQ (l.map (fun x => x * d)) = meanQ l * d := by
  unfold meanQ
  rw [List.length_map]
  have : (l.map fun x => x * d).sum = l.sum * d := by
    induction l with
    | nil => simp
    | cons x xs ih => simp [ih]; ring
  rw [this]
  ring

/-- Claim C1: in every minibatch, the PPO policy loss of each of the three
variants (`PPOPolicy._update`, `MAPPOPolicy.update_actor`,
`PPOAdaptivePolicy._update`) equals the spec's
`-mean(min(ratio * adv, clip(ratio, 1-ε, 1+ε) * adv)) * action_dim`, with
`ratio = exp(log_prob - log_prob_at_collection)`. -/
theorem policy_loss_matches_spec (expF : ℚ → ℚ) (logProbs logProbsOld adv : List ℚ)
    (clip : ℚ) (actionDim : ℕ) :
    ppo_policy_loss clip actionDim (ratios expF logProbs logProbsOld) adv
        = spec_policy_loss clip actionDim (ratios expF logProbs logProbsOld) adv
    ∧ mappo_policy_loss clip actionDim (ratios expF logProbs logProbsOld) adv
        = spec_policy_loss clip actionDim (ratios expF logProbs logProbsOld) adv
    ∧ ppo_adapt_policy_loss clip actionDim (ratios expF logProbs logProbsOld) adv
        = spec_policy_loss clip actionDim (ratios expF logProbs logProbsOld) adv := by
  set r := ratios expF logProbs logProbsOld with hr
  have hppo : ppo_policy_loss clip actionDim r adv
      = spec_policy_loss clip actionDim r adv := by
    unfold ppo_policy_loss spec_policy_loss
    rw [List.zipWith_comm (fun a r => min (a * r) (a * clampQ r (1 - clip) (1 + clip)))]
    have hzip := zipWith_ext
      (fun b a => min (a * b) (a * clampQ b (1 - clip) (1 + clip)))
      (fun b a => min (b * a) (clampQ b (1 - clip) (1 + clip) * a))
      r adv (fun b a => by dsimp only; rw [mul_comm a b, mul_comm a])
    rw [hzip]
  refine ⟨hppo, ?_, hppo⟩
  unfold mappo_policy_loss spec_policy_loss
  have hmap : List.zipWith
      (fun ra a => min (ra * a) (clampQ ra (1 - clip) (1 + clip) * a) * (actionDim : ℚ))
      r adv
      = (List.zipWith
          (fun ra a => min (ra * a) (clampQ ra (1 - clip) (1 + clip) * a)) r adv).map
        (fun x => x * (actionDim : ℚ)) := by
    rw [List.map_zipWith]
  rw [hmap, meanQ_map_mul_right]
  ring

/-! ## PPO value loss (claim C2)

Embedded from `MAPPOPolicy.update_critic` (mappo.py, lines 242-255),
`PPOAdaptivePolicy._update` (ppo/ppo_adapt.py, lines 306-314), and
`PPOPolicy._update` (ppo/ppo.py, lines 165-168).
-/

/-- Per-element `nn.MSELoss(reduction="none")(input, target)`. -/
def mseElem (input target : ℚ) : ℚ := (input - target) ^ 2

/-- Per-element `nn.HuberLoss(delta=δ)` before reduction. -/
def huberElem (δ : ℚ) (input target : ℚ) : ℚ :=
  if |input - target| ≤ δ then (input - target) ^ 2 / 2
  else δ * (|input - target| - δ / 2)

/-- `value_pred_clipped = b_values + (values - b_values).clamp(-clip_param, clip_param)`
(mappo.py line 248, ppo_adapt.py line 309). -/
def value_pred_clipped (clip bValue v : ℚ) : ℚ :=
  bValue + clampQ (v - bValue) (-clip) clip

/-- `MAPPOPolicy.update_critic` per-element value loss:
`torch.max(critic_loss_fn(b_returns, values), critic_loss_fn(b_returns, value_pred_clipped))`
with an elementwise (`reduction="none"`) loss function. -/
def mappo_value_loss_elem (lossFn : ℚ → ℚ → ℚ) (clip bValue v ret : ℚ) : ℚ :=
  max (lossFn ret v) (lossFn ret (value_pred_clipped clip bValue v))

/-- `PPOAdaptivePolicy._update` value loss: `critic_loss_fn` is
`nn.HuberLoss(delta=10)` whose default reduction is a batch mean, so the
`torch.max` is taken over two already-reduced scalars. -/
def ppo_adapt_value_loss (clip : ℚ) (bValues vs rets : List ℚ) : ℚ :=
  max (meanQ (List.zipWith (huberElem 10) rets vs))
    (meanQ (List.zipWith (huberElem 10) rets
      (List.zipWith (fun bv v => value_pred_clipped clip bv v) bValues vs)))

/-- `PPOPolicy._update` per-element value loss:
`critic_loss_fn(b_returns, values) * (~is_init)` with `nn.MSELoss(reduction="none")`
and no value clipping. -/
def ppo_value_loss_elem (ret v : ℚ) (isInit : Bool) : ℚ :=
  mseElem ret v * (if isInit then 0 else 1)

/-- The spec's clipped prediction: the predicted value clipped to within
`±clip` of the value recorded at collection time. -/
def spec_value_pred_clipped (clip bValue v : ℚ) : ℚ :=
  clampQ v (bValue - clip) (bValue + clip)

/-- The spec's per-element value loss (§4.6 step 4):
`max(loss(return, clipped_pred), loss(return, unclipped_pred))`. -/
def spec_value_loss_elem (lossFn : ℚ → ℚ → ℚ) (clip bValue v ret : ℚ) : ℚ :=
  max (lossFn ret (spec_value_pred_clipped clip bValue v)) (lossFn ret v)

lemma value_pred_clipped_eq_spec (clip bValue v : ℚ) :
    value_pred_clipped clip bValue v = spec_value_pred_clipped clip bValue v := by
  unfold value_pred_clipped spec_value_pred_clipped clampQ
  rcases le_total (v - bValue) (-clip) with h1 | h1 <;>
    rcases le_total (v - bValue) clip with h2 | h2 <;>
      rcases le_total v (bValue - clip) with h3 | h3 <;>
        simp [min_def, max_def] <;> split_ifs <;> linarith

/-- Claim C2, counterexample: `PPOPolicy._update` (ppo/ppo.py, its clip
parameter is 0.1) computes the value loss without any clipping, so at
return 1, new prediction 1, collection-time value 0, its per-element value
loss (0) differs from the clipped-max formula the claim states (81/100). -/
theorem ppo_value_loss_not_clipped_cex :
    ppo_value_loss_elem 1 1 false ≠ spec_value_loss_elem mseElem (1 / 10) 0 1 1 := by
  unfold ppo_value_loss_elem spec_value_loss_elem spec_value_pred_clipped clampQ mseElem
  norm_num

/-- Claim C2 (amended): `MAPPOPolicy.update_critic` computes the per-element
value loss as `max(loss(return, clipped_pred), loss(return, unclipped_pred))`
where the clipped prediction is the new prediction clipped to within `±ε` of
the collection-time value; `PPOAdaptivePolicy._update` computes the same
`max`, but over batch-mean-reduced Huber losses rather than per element;
`PPOPolicy._update` uses a plain unclipped elementwise MSE (masked by
`~is_init`) with no value clipping. -/
theorem value_loss_clipping (lossFn : ℚ → ℚ → ℚ) (clip bValue v ret : ℚ)
    (bValues vs rets : List ℚ) :
    mappo_value_loss_elem lossFn clip bValue v ret
        = spec_value_loss_elem lossFn clip bValue v ret
    ∧ ppo_adapt_value_loss clip bValues vs rets
        = max (meanQ (List.zipWith (huberElem 10) rets
            (List.zipWith (fun bv w => spec_value_pred_clipped clip bv w) bValues vs)))
          (meanQ (List.zipWith (huberElem 10) rets vs))
    ∧ ppo_value_loss_elem ret v false = mseElem ret v := by
  refine ⟨?_, ?_, ?_⟩
  · unfold mappo_value_loss_elem spec_value_loss_elem
    rw [value_pred_clipped_eq_spec, max_comm]
  · unfold ppo_adapt_value_loss
    rw [max_comm]
    congr 3
    exact zipWith_ext _ _ bValues vs
      (fun bv w => value_pred_clipped_eq_spec clip bv w)
  · unfold ppo_value_loss_elem
    norm_num

/-! ## Generalized advantage estimation (claim C3) -/

/-- One time step of the advantage estimator's input: reward `r`,
termination flag `term`, done flag `done`, and value estimate `v`
(flags are 0/1-valued rationals, as the float masks in the code). -/
structure GAEStep where
  r : ℚ
  term : ℚ
  done : ℚ
  v : ℚ

/-- The value of the step after the current one: the next step's value
estimate, or the bootstrap value `vT` at the end of the batch. -/
def nextV (rest : List GAEStep) (vT : ℚ) : ℚ :=
  match rest with
  | [] => vT
  | s :: _ => s.v

/-- Modelled from the spec: the backward GAE recursion of §4.1 (the `GAE`
class of `omni_drones/learning/ppo/common.py` and `compute_gae` of
`omni_drones/learning/utils/gae.py` are not present under src/; only their
call sites are).  For `t = T-1 … 0`:
`not_done = 1 - done[t]`,
`delta = r[t] + gamma * v[t+1] * not_done - v[t]`,
`mask_term = 1 - term[t]`,
`adv[t] = delta + gamma * lmbda * not_done * mask_term * adv[t+1]`. -/
def gaeAdv (gamma lmbda : ℚ) (steps : List GAEStep) (vT : ℚ) : List ℚ :=
  match steps with
  | [] => []
  | s :: rest =>
    let advRest := gaeAdv gamma lmbda rest vT
    let notDone := 1 - s.done
    let delta := s.r + gamma * nextV rest vT * notDone - s.v
    (delta + gamma * lmbda * notDone * (1 - s.term) * advRest.headD 0) :: advRest

/-- Modelled from the spec: `ret[t] = adv[t] + v[t]` (§4.1). -/
def gaeRet (gamma lmbda : ℚ) (steps : List GAEStep) (vT : ℚ) : List ℚ :=
  List.zipWith (fun a s => a + s.v) (gaeAdv gamma lmbda steps vT) steps

example :
    gaeAdv 1 1 [⟨1, 0, 0, 0⟩, ⟨1, 0, 0, 0⟩, ⟨1, 0, 0, 0⟩] 0 = [3, 2, 1]
    ∧ gaeRet 1 1 [⟨1, 0, 0, 0⟩, ⟨1, 0, 0, 0⟩, ⟨1, 0, 0, 0⟩] 0 = [3, 2, 1] := by
  constructor <;> norm_num [gaeAdv, gaeRet, nextV]

example : gaeAdv (99/100) (95/100) [⟨5, 0, 1, 2⟩] 7 = [3] := by
  norm_num [gaeAdv, nextV]

/-- One time step of the single-flag estimator's input: reward `r`, done
flag `done`, and value estimate `v` — no termination flag. -/
structure GAEStepD where
  r : ℚ
  done : ℚ
  v : ℚ

/-- The value of the step after the current one, single-flag variant. -/
def nextVD (rest : List GAEStepD) (vT : ℚ) : ℚ :=
  match rest with
  | [] => vT
  | s :: _ => s.v

/-- Modelled from the spec: `compute_gae(rewards, dones, values, next_value)`
of `omni_drones/learning/utils/gae.py` (not present under src/), the
advantage estimator called by `MAPPOPolicy.train_op` (mappo.py, line 294)
and `PPOAdaptivePolicy._train_policy` (ppo_adapt.py, line 273).  Both call
sites pass a single flag tensor `dones` (mappo derives it as
`agent_done | env_done`) and no termination flags, so the recursion is that
of §4.1 with no separate termination input (`mask_term ≡ 1`):
`delta = r[t] + gamma * v[t+1] * not_done - v[t]`,
`adv[t] = delta + gamma * lmbda * not_done * adv[t+1]`. -/
def compute_gae_adv (gamma lmbda : ℚ) (steps : List GAEStepD) (vT : ℚ) : List ℚ :=
  match steps with
  | [] => []
  | s :: rest =>
    let advRest := compute_gae_adv gamma lmbda rest vT
    let notDone := 1 - s.done
    let delta := s.r + gamma * nextVD rest vT * notDone - s.v
    (delta + gamma * lmbda * notDone * advRest.headD 0) :: advRest

/-- Claim C3, counterexample: the advantage estimator used by the cited
`MAPPOPolicy.train_op` call site is `compute_gae`, which receives a single
done flag per step and no termination input.  With `gamma = lmbda = 1`,
rewards `[0, 1]`, values `[0, 5]`, bootstrap `0`, the two-input §4.1
recursion at `term[0] = 1, done[0] = 0` gives `advantage[0] = 5` (bootstrap
kept, propagation zeroed), while the single-flag estimator gives
`advantage[0] = 1` with `done[0] = 0` and `advantage[0] = 0` with
`done[0] = 1`: neither value of its only flag reproduces the distinct-roles
behavior, so this estimator does not receive termination and done flags as
two distinct inputs. -/
theorem mappo_gae_no_term_input_cex :
    (gaeAdv 1 1 [⟨0, 1, 0, 0⟩, ⟨1, 0, 0, 5⟩] 0).headD 0 = 5
    ∧ (compute_gae_adv 1 1 [⟨0, 0, 0⟩, ⟨1, 0, 5⟩] 0).headD 0 = 1
    ∧ (compute_gae_adv 1 1 [⟨0, 1, 0⟩, ⟨1, 0, 5⟩] 0).headD 0 = 0
    ∧ (5 : ℚ) ≠ 1 ∧ (5 : ℚ) ≠ 0 := by
  refine ⟨?_, ?_, ?_, by norm_num, by norm_num⟩ <;>
    norm_num [gaeAdv, compute_gae_adv, nextV, nextVD]

/-- Claim C3 (amended): `PPOPolicy`'s advantage estimator (the `GAE` class,
called with `terms` and `dones` at ppo.py line 210) takes termination flags
and done flags as two distinct inputs with distinct roles: whenever
`done[t] = 1`, the advantage at `t` equals `r[t] - v[t]` — the propagation
of `advantage[t+1]` into `advantage[t]` is zeroed through the `not_done`
mask, regardless of `term[t]` and of everything after step `t` — while
`done[t] = 0, term[t] = 1` zeroes only the `advantage[t+1]` propagation and
keeps the one-step value bootstrap `gamma * v[t+1]`.  The MAPPO and
adaptive-PPO variants instead call `compute_gae`, which receives a single
done flag
per step and no termination input; for it, `done[t] = 1` likewise zeroes the
propagation and forces `advantage[t] = r[t] - v[t]`. -/
theorem gae_done_blocks_propagation (gamma lmbda : ℚ) (r term v vT : ℚ)
    (rest : List GAEStep) (restD : List GAEStepD) :
    (gaeAdv gamma lmbda (⟨r, term, 1, v⟩ :: rest) vT).headD 0 = r - v
    ∧ (gaeAdv gamma lmbda (⟨r, 1, 0, v⟩ :: rest) vT).headD 0
        = r + gamma * nextV rest vT - v
    ∧ (compute_gae_adv gamma lmbda (⟨r, 1, v⟩ :: restD) vT).headD 0 = r - v := by
  refine ⟨?_, ?_, ?_⟩ <;> (simp [gaeAdv, compute_gae_adv]; try ring)

/-! ## Target-network updates (claims C4 and C10)

Embedded from `soft_update` and `hard_update` (learning/common.py, lines 5-12).
A module's parameter sequence is a list of parameter tensors, each a list of
rational entries; `zip(target.parameters(), source.parameters())` is the
positional `List.zipWith`.
-/

/-- One `target_param.data.copy_(tau * param.data + (1.0 - tau) * target_param.data)`
applied elementwise to a pair of parameter tensors. -/
def soft_update_param (tau : ℚ) (targetP sourceP : List ℚ) : List ℚ :=
  List.zipWith (fun t s => tau * s + (1 - tau) * t) targetP sourceP

/-- `soft_update(target, source, tau)` over the zipped parameter lists. -/
def soft_update (tau : ℚ) (target source : List (List ℚ)) : List (List ℚ) :=
  List.zipWith (soft_update_param tau) target source

/-- One `target_param.data.copy_(param.data)` applied elementwise. -/
def hard_update_param (targetP sourceP : List ℚ) : List ℚ :=
  List.zipWith (fun _ s => s) targetP sourceP

/-- `hard_update(target, source)` over the zipped parameter lists. -/
def hard_update (target source : List (List ℚ)) : List (List ℚ) :=
  List.zipWith hard_update_param target source

lemma getD_zipWith {α β γ : Type} (f : α → β → γ) (l1 : List α) (l2 : List β)
    (h : l1.length = l2.length) (i : ℕ) (d1 : α) (d2 : β) :
    (List.zipWith f l1 l2).getD i (f d1 d2) = f (l1.getD i d1) (l2.getD i d2) := by
  induction l1 generalizing l2 i with
  | nil =>
    cases l2 with
    | nil => simp [List.getD]
    | cons b bs => simp at h
  | cons a as ih =>
    cases l2 with
    | nil => simp at h
    | cons b bs =>
      cases i with
      | zero => simp [List.getD]
      | succ n =>
        simp only [List.zipWith_cons_cons, List.getD_cons_succ]
        exact ih bs (by simpa using h) n

lemma forall₂_getD {α β : Type} (R : α → β → Prop) (l1 : List α) (l2 : List β)
    (h : List.Forall₂ R l1 l2) (d1 : α) (d2 : β) (hd : R d1 d2) (i : ℕ) :
    R (l1.getD i d1) (l2.getD i d2) := by
  induction h generalizing i with
  | nil => simpa [List.getD] using hd
  | cons hR _ ih =>
    cases i with
    | zero => simpa [List.getD] using hR
    | succ n => simpa [List.getD_cons_succ] using ih n

lemma soft_update_param_one (targetP sourceP : List ℚ)
    (h : targetP.length = sourceP.length) :
    soft_update_param 1 targetP sourceP = sourceP := by
  unfold soft_update_param
  induction targetP generalizing sourceP with
  | nil => cases sourceP with
    | nil => rfl
    | cons b bs => simp at h
  | cons a as ih =>
    cases sourceP with
    | nil => simp at h
    | cons b bs =>
      simp only [List.zipWith_cons_cons, List.cons.injEq]
      exact ⟨by ring, ih bs (by simpa using h)⟩

/-- Claim C4: `soft_update` sets every target parameter entry to
`tau * source + (1 - tau) * target` elementwise over positionally matching
parameters, and one call with `tau = 1` makes every target parameter exactly
equal to the corresponding source parameter. -/
theorem soft_update_correct (tau : ℚ) (target source : List (List ℚ))
    (h : List.Forall₂ (fun tp sp => tp.length = sp.length) target source) :
    (∀ i j : ℕ,
      (((soft_update tau target source).getD i []).getD j 0)
        = tau * ((source.getD i []).getD j 0)
            + (1 - tau) * ((target.getD i []).getD j 0))
    ∧ soft_update 1 target source = source := by
  constructor
  · intro i j
    have hlen : target.length = source.length := h.length_eq
    have houter :
        (soft_update tau target source).getD i (soft_update_param tau [] [])
          = soft_update_param tau (target.getD i []) (source.getD i []) :=
      getD_zipWith (soft_update_param tau) target source hlen i [] []
    have hinner : (target.getD i []).length = (source.getD i []).length :=
      forall₂_getD _ target source h [] [] rfl i
    have helem :
        (soft_update_param tau (target.getD i []) (source.getD i [])).getD j
            ((fun t s => tau * s + (1 - tau) * t) 0 0)
          = tau * ((source.getD i []).getD j 0)
              + (1 - tau) * ((target.getD i []).getD j 0) :=
      getD_zipWith (fun t s => tau * s + (1 - tau) * t)
        (target.getD i []) (source.getD i []) hinner j 0 0
    have hz : (fun (t s : ℚ) => tau * s + (1 - tau) * t) 0 0 = 0 := by ring
    have hz2 : soft_update_param tau [] [] = ([] : List ℚ) := rfl
    rw [hz2] at houter
    rw [hz] at helem
    rw [houter.symm] at helem
    exact helem
  · unfold soft_update
    induction h with
    | nil => rfl
    | cons hR hrest ih =>
      simp only [List.zipWith_cons_cons, List.cons.injEq]
      exact ⟨soft_update_param_one _ _ hR, ih⟩

/-- Witness for `soft_update_correct` at `tau = 1` on concrete parameters. -/
theorem soft_update_correct_witness :
    (∀ i j : ℕ,
      (((soft_update 1 [[1, 2], [3]] [[4, 5], [6]]).getD i []).getD j 0)
        = 1 * (([[4, 5], [6]].getD i []).getD j 0)
            + (1 - 1) * (([[1, 2], [3]].getD i []).getD j 0))
    ∧ soft_update 1 [[1, 2], [3]] [[4, 5], [6]] = [[4, 5], [6]] :=
  soft_update_correct 1 [[1, 2], [3]] [[4, 5], [6]]
    (List.Forall₂.cons rfl (List.Forall₂.cons rfl List.Forall₂.nil))

/-- Claim C10: for every pair of parameter-list sequences, `hard_update`
leaves the target in exactly the state `soft_update` with `tau = 1` does:
both copy each source entry into the positionally corresponding target
entry. -/
theorem hard_update_eq_soft_update_one (target source : List (List ℚ)) :
    hard_update target source = soft_update 1 target source := by
  unfold hard_update soft_update
  apply zipWith_ext
  intro tp sp
  unfold hard_update_param soft_update_param
  apply zipWith_ext
  intro t s
  ring

/-! ## Replay buffer (claims C5 and C6)

Embedded from `MyBuffer` and `sample_sub_traj` (learning/common.py,
lines 19-58).  The underlying `LazyTensorStorage` is a fixed-size store of
`max_size` slots, lazily zero-initialized (`Option` entries, `none` =
never written); `storage.set(cursor, data)` writes each datum at its index
and grows `_len` to `max(_len, max(cursor) + 1)`. -/

structure MyBuffer (α : Type) where
  maxSize : ℕ
  storage : List (Option α)
  len : ℕ
  cursor : ℕ

/-- A fresh `MyBuffer(max_size)`: empty storage, `_len = 0`, `_cursor = 0`. -/
def MyBuffer.init (α : Type) (maxSize : ℕ) : MyBuffer α :=
  ⟨maxSize, List.replicate maxSize none, 0, 0⟩

/-- `cursor = (self._cursor + torch.arange(t)) % self.storage.max_size`. -/
def extendIdx (cursor t maxSize : ℕ) : List ℕ :=
  (List.range t).map (fun k => (cursor + k) % maxSize)

/-- `storage.set`: write each datum at its target slot, in order. -/
def storageSet {α : Type} (storage : List (Option α)) (writes : List (ℕ × α)) :
    List (Option α) :=
  writes.foldl (fun s p => s.set p.1 (some p.2)) storage

/-- `MyBuffer.extend(data)` for a batch of `data.length` time steps
(the source indexes `cursor[-1]`, so the batch is nonempty there;
the empty case is unreachable and modelled as a no-op). -/
def MyBuffer.extend {α : Type} (b : MyBuffer α) (data : List α) : MyBuffer α :=
  match data with
  | [] => b
  | _ =>
    let idx := extendIdx b.cursor data.length b.maxSize
    { maxSize := b.maxSize
      storage := storageSet b.storage (idx.zip data)
      len := max b.len (idx.foldr max 0 + 1)
      cursor := idx.getLastD 0 + 1 }

lemma storageSet_length {α : Type} (storage : List (Option α))
    (writes : List (ℕ × α)) :
    (storageSet storage writes).length = storage.length := by
  induction writes generalizing storage with
  | nil => rfl
  | cons w ws ih =>
    unfold storageSet
    simp only [List.foldl_cons]
    rw [← storageSet]
    rw [ih, List.length_set]

lemma foldr_max_lt (l : List ℕ) (m : ℕ) (hm : 0 < m)
    (h : ∀ x ∈ l, x < m) : l.foldr max 0 + 1 ≤ m := by
  induction l with
  | nil => simpa using hm
  | cons x xs ih =>
    simp only [List.foldr_cons]
    have hx := h x (List.mem_cons_self x xs)
    have hxs := ih (fun y hy => h y (List.mem_cons_of_mem x hy))
    omega

lemma extend_preserves {α : Type} (b : MyBuffer α) (data : List α)
    (hm : 0 < b.maxSize) (hlen : b.len ≤ b.maxSize)
    (hst : b.storage.length = b.maxSize) :
    (b.extend data).maxSize = b.maxSize
    ∧ (b.extend data).len ≤ b.maxSize
    ∧ (b.extend data).storage.length = b.maxSize := by
  cases data with
  | nil => exact ⟨rfl, hlen, hst⟩
  | cons d ds =>
    unfold MyBuffer.extend
    refine ⟨rfl, ?_, ?_⟩
    · have hbound : ∀ x ∈ extendIdx b.cursor (d :: ds).length b.maxSize,
          x < b.maxSize := by
        intro x hx
        unfold extendIdx at hx
        simp only [List.mem_map, List.mem_range] at hx
        obtain ⟨k, _, hk⟩ := hx
        rw [← hk]
        exact Nat.mod_lt _ hm
      have := foldr_max_lt _ _ hm hbound
      simp only [max_le_iff]
      exact ⟨hlen, this⟩
    · rw [storageSet_length, hst]

/-- Claim C5: for every sequence of `extend` calls on a buffer of positive
capacity, the stored-entry count `_len` never exceeds the capacity and the
storage always occupies exactly `max_size` slots; moreover, for a buffer of
capacity 4 into which four entries have been inserted, the fifth insert is
written at slot `(4 + 0) % 4 = 0`, overwriting the oldest entry (sentinel
10 is replaced by sentinel 50) while `_len` stays 4. -/
theorem mybuffer_capacity_wraps (maxSize : ℕ) (hm : 0 < maxSize)
    (batches : List (List ℕ)) :
    ((batches.foldl MyBuffer.extend (MyBuffer.init ℕ maxSize)).len ≤ maxSize
      ∧ (batches.foldl MyBuffer.extend (MyBuffer.init ℕ maxSize)).storage.length
          = maxSize)
    ∧ (((([[10], [20], [30], [40]] : List (List ℕ)).foldl MyBuffer.extend
            (MyBuffer.init ℕ 4)).extend [50]).storage.getD 0 none = some 50
        ∧ (([[10], [20], [30], [40]] : List (List ℕ)).foldl MyBuffer.extend
            (MyBuffer.init ℕ 4)).storage.getD 0 none = some 10
        ∧ (([[10], [20], [30], [40]] : List (List ℕ)).foldl MyBuffer.extend
            (MyBuffer.init ℕ 4)).len = 4
        ∧ ((([[10], [20], [30], [40]] : List (List ℕ)).foldl MyBuffer.extend
            (MyBuffer.init ℕ 4)).extend [50]).len = 4
        ∧ extendIdx (([[10], [20], [30], [40]] : List (List ℕ)).foldl
            MyBuffer.extend (MyBuffer.init ℕ 4)).cursor 1 4 = [0]) := by
  constructor
  · have main : ∀ (bs : List (List ℕ)) (b : MyBuffer ℕ),
        b.maxSize = maxSize → b.len ≤ maxSize → b.storage.length = maxSize →
        ((bs.foldl MyBuffer.extend b).len ≤ maxSize
          ∧ (bs.foldl MyBuffer.extend b).storage.length = maxSize) := by
      intro bs
      induction bs with
      | nil => intro b _ h2 h3; exact ⟨h2, h3⟩
      | cons d ds ih =>
        intro b h1 h2 h3
        have hp := extend_preserves b d (h1 ▸ hm) (h1 ▸ h2) (h1 ▸ h3)
        exact ih (b.extend d) (hp.1.trans h1) (h1 ▸ hp.2.1) (h1 ▸ hp.2.2)
    exact main batches (MyBuffer.init ℕ maxSize) rfl (Nat.zero_le _)
      (List.length_replicate _ _)
  · decide

/-- Witness for `mybuffer_capacity_wraps` at capacity 4 with two insert
batches totalling 7 entries (so the write index wraps). -/
theorem mybuffer_capacity_wraps_witness :
    ((([[1, 2], [3, 4, 5, 6, 7]] : List (List ℕ)).foldl MyBuffer.extend
        (MyBuffer.init ℕ 4)).len ≤ 4
      ∧ (([[1, 2], [3, 4, 5, 6, 7]] : List (List ℕ)).foldl MyBuffer.extend
          (MyBuffer.init ℕ 4)).storage.length = 4)
    ∧ (((([[10], [20], [30], [40]] : List (List ℕ)).foldl MyBuffer.extend
            (MyBuffer.init ℕ 4)).extend [50]).storage.getD 0 none = some 50
        ∧ (([[10], [20], [30], [40]] : List (List ℕ)).foldl MyBuffer.extend
            (MyBuffer.init ℕ 4)).storage.getD 0 none = some 10
        ∧ (([[10], [20], [30], [40]] : List (List ℕ)).foldl MyBuffer.extend
            (MyBuffer.init ℕ 4)).len = 4
        ∧ ((([[10], [20], [30], [40]] : List (List ℕ)).foldl MyBuffer.extend
            (MyBuffer.init ℕ 4)).extend [50]).len = 4
        ∧ extendIdx (([[10], [20], [30], [40]] : List (List ℕ)).foldl
            MyBuffer.extend (MyBuffer.init ℕ 4)).cursor 1 4 = [0]) :=
  mybuffer_capacity_wraps 4 (by decide) [[1, 2], [3, 4, 5, 6, 7]]

/-- The two failure modes of `MyBuffer.sample`: the explicit `ValueError`
guard, and the `RuntimeError` raised by `torch.randint(0, hi)` when
`hi <= 0` inside `sample_sub_traj`. -/
inductive SampleErr where
  | valueError
  | randintEmptyRange
  deriving DecidableEq

/-- `sample_sub_traj(traj, seq_len)` (learning/common.py, lines 55-58):
draws `t = torch.randint(0, traj.shape[0] - seq_len)` — which fails when the
range is empty, i.e. when `traj.shape[0] <= seq_len` — and returns
`traj[t : t + seq_len]`.  The random draw is passed as the argument `t`. -/
def sample_sub_traj {α : Type} (traj : List α) (seqLen t : ℕ) :
    Except SampleErr (List α) :=
  if traj.length ≤ seqLen then Except.error SampleErr.randintEmptyRange
  else Except.ok ((traj.drop t).take seqLen)

/-- One stored trajectory column of the buffer: `self.storage[:self.storage._len]`,
with lazily-allocated (never written) slots reading as the zero element `d`. -/
def MyBuffer.traj {α : Type} (b : MyBuffer α) (d : α) : List α :=
  (b.storage.take b.len).map (fun o => o.getD d)

/-- `MyBuffer.sample` (learning/common.py, lines 36-50): raise `ValueError`
if `seq_len > self.storage._len`, otherwise extract a random sub-trajectory
of `seq_len` steps via `sample_sub_traj`. -/
def MyBuffer.sample {α : Type} (b : MyBuffer α) (d : α) (seqLen t : ℕ) :
    Except SampleErr (List α) :=
  if b.len < seqLen then Except.error SampleErr.valueError
  else sample_sub_traj (b.traj d) seqLen t

/-- Claim C6, counterexample: a buffer holding 2 entries (so nonempty, and
`seq_len = 2` does not exceed the valid length) makes `sample` fail anyway:
the explicit guard passes but `torch.randint(0, 0)` has an empty range, so
the call does not succeed as the claim states. -/
theorem sample_at_full_length_fails_cex :
    (([[1], [2]] : List (List ℕ)).foldl MyBuffer.extend (MyBuffer.init ℕ 4)).len = 2
    ∧ (∀ t : ℕ, t ≤ 2 →
        (([[1], [2]] : List (List ℕ)).foldl MyBuffer.extend
            (MyBuffer.init ℕ 4)).sample 0 2 t
          = Except.error SampleErr.randintEmptyRange) := by
  constructor
  · decide
  · intro t ht
    rfl

/-- Claim C6 (amended): `MyBuffer.sample` fails with `ValueError` whenever
`seq_len` exceeds the buffer's current valid length; when `seq_len` equals
the valid length the guard passes but the underlying `randint` has an empty
range and the call still fails; for every `seq_len` strictly below the valid
length (and any draw in `randint`'s range) the call succeeds and returns a
sub-trajectory of exactly `seq_len` contiguous steps. -/
theorem mybuffer_sample_spec (b : MyBuffer ℕ) (seqLen t : ℕ)
    (hlen : b.len ≤ b.storage.length) :
    (b.len < seqLen → b.sample 0 seqLen t = Except.error SampleErr.valueError)
    ∧ (seqLen = b.len →
        b.sample 0 seqLen t = Except.error SampleErr.randintEmptyRange)
    ∧ (seqLen < b.len → t < b.len - seqLen →
        ∃ l, b.sample 0 seqLen t = Except.ok l
          ∧ l.length = seqLen
          ∧ ∀ k, k < seqLen → l.getD k 0 = (b.traj 0).getD (t + k) 0) := by
  have htlen : (b.traj 0).length = b.len := by
    unfold MyBuffer.traj
    rw [List.length_map, List.length_take]
    omega
  refine ⟨?_, ?_, ?_⟩
  · intro h
    unfold MyBuffer.sample
    rw [if_pos h]
  · intro h
    unfold MyBuffer.sample sample_sub_traj
    rw [if_neg (by omega), if_pos (by omega)]
  · intro hs ht
    unfold MyBuffer.sample sample_sub_traj
    rw [if_neg (by omega), if_neg (by omega)]
    refine ⟨_, rfl, ?_, ?_⟩
    · rw [List.length_take, List.length_drop, htlen]
      omega
    · intro k hk
      have hik : t + k < (b.traj 0).length := by omega
      have h1 : ((b.traj 0).drop t).take seqLen = ((b.traj 0).take (t + seqLen)).drop t := by
        rw [List.drop_take]
        congr 1
        omega
      rw [h1]
      have hk2 : t + k < t + seqLen := by omega
      calc (((b.traj 0).take (t + seqLen)).drop t).getD k 0
          = ((b.traj 0).take (t + seqLen)).getD (t + k) 0 := by
            simp [List.getD, List.getElem?_drop]
        _ = (b.traj 0).getD (t + k) 0 := by
            simp [List.getD, List.getElem?_take, hk2]

/-- Witness for `mybuffer_sample_spec`: a buffer with 3 valid entries,
`seq_len = 2`, draw `t = 0`. -/
theorem mybuffer_sample_spec_witness :
    ((MyBuffer.mk 4 [some 1, some 2, some 3, none] 3 3 : MyBuffer ℕ).len < 2 →
        (MyBuffer.mk 4 [some 1, some 2, some 3, none] 3 3 : MyBuffer ℕ).sample 0 2 0
          = Except.error SampleErr.valueError)
    ∧ (2 = (MyBuffer.mk 4 [some 1, some 2, some 3, none] 3 3 : MyBuffer ℕ).len →
        (MyBuffer.mk 4 [some 1, some 2, some 3, none] 3 3 : MyBuffer ℕ).sample 0 2 0
          = Except.error SampleErr.randintEmptyRange)
    ∧ (2 < (MyBuffer.mk 4 [some 1, some 2, some 3, none] 3 3 : MyBuffer ℕ).len →
        0 < (MyBuffer.mk 4 [some 1, some 2, some 3, none] 3 3 : MyBuffer ℕ).len - 2 →
        ∃ l, (MyBuffer.mk 4 [some 1, some 2, some 3, none] 3 3 : MyBuffer ℕ).sample 0 2 0
            = Except.ok l
          ∧ l.length = 2
          ∧ ∀ k, k < 2 → l.getD k 0
              = ((MyBuffer.mk 4 [some 1, some 2, some 3, none] 3 3 : MyBuffer ℕ).traj 0).getD
                  (0 + k) 0) :=
  mybuffer_sample_spec ⟨4, [some 1, some 2, some 3, none], 3, 3⟩ 2 0 (by decide)

/-! ## Minibatch generator (claim C7)

Embedded from `make_batch` (ppo/ppo.py, lines 220-227; ppo/ppo_adapt.py,
lines 425-432) and the `seq_len == 1` branch of `make_dataset_naive`
(mappo.py, lines 360-367): `perm = randperm((n // m) * m).reshape(m, -1)`,
then one minibatch per row.  `randperm`'s draw is passed as the list `perm`,
constrained to be a permutation of `range((n // m) * m)`. -/

/-- `reshape(m, -1)`: split a list into exactly `m` consecutive rows of
`sz` elements each. -/
def chunkExact {α : Type} : ℕ → ℕ → List α → List (List α)
  | 0, _, _ => []
  | m + 1, sz, l => l.take sz :: chunkExact m sz (l.drop sz)

/-- The minibatch index rows yielded by one pass of `make_batch` over a
flattened batch of `n` transitions with `m` minibatches: the drawn
permutation `perm` of `range((n // m) * m)`, reshaped to `m` rows of
`n // m` indices. -/
def make_batch_indices (n m : ℕ) (perm : List ℕ) : List (List ℕ) :=
  chunkExact m (n / m) perm

lemma chunkExact_length {α : Type} (m sz : ℕ) (l : List α) :
    (chunkExact m sz l).length = m := by
  induction m generalizing l with
  | zero => rfl
  | succ k ih => simp [chunkExact, ih]

lemma chunkExact_flatten {α : Type} (m sz : ℕ) (l : List α) :
    (chunkExact m sz l).flatten = l.take (m * sz) := by
  induction m generalizing l with
  | zero => simp [chunkExact]
  | succ k ih =>
    simp only [chunkExact, List.flatten_cons, ih]
    rw [Nat.succ_mul, Nat.add_comm (k * sz) sz, List.take_add]

lemma chunkExact_mem_length {α : Type} (m sz : ℕ) (l : List α)
    (h : l.length = m * sz) :
    ∀ c ∈ chunkExact m sz l, c.length = sz := by
  induction m generalizing l with
  | zero => intro c hc; simp [chunkExact] at hc
  | succ k ih =>
    intro c hc
    simp only [chunkExact, List.mem_cons] at hc
    rcases hc with hc | hc
    · rw [hc, List.length_take]
      have : sz ≤ l.length := by
        rw [h, Nat.succ_mul]
        omega
      omega
    · exact ih (l.drop sz) (by rw [List.length_drop, h, Nat.succ_mul]; omega) c hc

/-- Claim C7: for a flattened batch of `n` transitions and `m = num_minibatches`,
one pass of the minibatch generator yields `m` minibatches of `n / m` indices
each; their concatenation is a permutation of `range((n / m) * m)` — so the
index sets are pairwise disjoint and cover each selected transition exactly
once — and no index at or past `(n / m) * m` is ever selected; when `m`
divides `n` the selected indices are exactly `0, …, n - 1`. -/
theorem make_batch_partition (n m : ℕ) (perm : List ℕ) (_hm : 0 < m)
    (hperm : perm.Perm (List.range (n / m * m))) :
    (make_batch_indices n m perm).length = m
    ∧ (∀ c ∈ make_batch_indices n m perm, c.length = n / m)
    ∧ (make_batch_indices n m perm).flatten.Perm (List.range (n / m * m))
    ∧ (∀ c ∈ make_batch_indices n m perm, ∀ i ∈ c, i < n / m * m)
    ∧ (m ∣ n → n / m * m = n) := by
  have hlen : perm.length = n / m * m := by
    rw [hperm.length_eq, List.length_range]
  have hjoin : (make_batch_indices n m perm).flatten = perm := by
    unfold make_batch_indices
    rw [chunkExact_flatten, Nat.mul_comm, ← hlen, List.take_length]
  refine ⟨chunkExact_length m (n / m) perm, ?_, ?_, ?_, ?_⟩
  · exact chunkExact_mem_length m (n / m) perm (by rw [hlen, Nat.mul_comm])
  · rw [hjoin]
    exact hperm
  · intro c hc i hi
    have hmem : i ∈ (make_batch_indices n m perm).flatten :=
      List.mem_flatten.2 ⟨c, hc, hi⟩
    rw [hjoin] at hmem
    have := hperm.mem_iff.1 hmem
    simpa [List.mem_range] using this
  · intro hd
    exact Nat.div_mul_cancel hd

/-- Witness for `make_batch_partition`: batch of 6 transitions into 2
minibatches with the drawn permutation `[3, 0, 5, 1, 4, 2]`. -/
theorem make_batch_partition_witness :
    (make_batch_indices 6 2 [3, 0, 5, 1, 4, 2]).length = 2
    ∧ (∀ c ∈ make_batch_indices 6 2 [3, 0, 5, 1, 4, 2], c.length = 6 / 2)
    ∧ (make_batch_indices 6 2 [3, 0, 5, 1, 4, 2]).flatten.Perm
        (List.range (6 / 2 * 2))
    ∧ (∀ c ∈ make_batch_indices 6 2 [3, 0, 5, 1, 4, 2], ∀ i ∈ c, i < 6 / 2 * 2)
    ∧ (2 ∣ 6 → 6 / 2 * 2 = 6) :=
  make_batch_partition 6 2 [3, 0, 5, 1, 4, 2] (by decide) (by decide)

/-! ## Adversarial adaptation phase (claim C8)

Embedded from `PPOAdaptivePolicy.__init__` (ppo/ppo_adapt.py, lines 225-228),
`PPOAdaptivePolicy._train_adaptation` (lines 336-349) and `GAN.forward`
(lines 369-399).  Two aspects are modelled symbolically: (a) which optimizer
steps happen per minibatch, and (b) which modules' parameters receive
gradients from each loss term.  A tensordict entry is represented by the
list of trainable modules its autograd graph reaches. -/

/-- The two trainable modules of the adversarial adaptation loss. -/
inductive Net where
  | adaptModule
  | discriminator
  deriving DecidableEq

/-- The parameter groups held by `self.adapt_opt =
Adam(self.adaptation_loss.parameters())`: the `GAN` module contains both the
adaptation module and the discriminator as submodules. -/
def adapt_opt_params : List Net := [Net.adaptModule, Net.discriminator]

/-- The optimizer interactions of `_train_adaptation` on one minibatch:
`zero_grad`, `backward`, one `step` of the single `adapt_opt`. -/
inductive TrainEvent where
  | zeroGrad (nets : List Net)
  | backwardLoss
  | stepOpt (nets : List Net)
  deriving DecidableEq

/-- `_train_adaptation`: 4 epochs over `num_minibatches` minibatches; for
each minibatch, `adapt_opt.zero_grad()`, `loss.backward()`,
`adapt_opt.step()`. -/
def train_adaptation_events (numMinibatches : ℕ) : List TrainEvent :=
  (List.replicate (4 * numMinibatches)
    [TrainEvent.zeroGrad adapt_opt_params, TrainEvent.backwardLoss,
      TrainEvent.stepOpt adapt_opt_params]).flatten

/-- The parameter groups stepped by each optimizer step, in order. -/
def optSteps (evs : List TrainEvent) : List (List Net) :=
  evs.filterMap (fun e => match e with
    | TrainEvent.stepOpt nets => some nets
    | _ => none)

/-- Grad-tracking of the tensordict entries touched by `GAN.forward`:
the adaptation-target entry (`context` or raw intrinsics) and the
discriminator output entry `label`; each holds the set of modules its
autograd graph reaches. -/
structure GradTD where
  contextGrad : List Net
  labelGrad : List Net
  deriving DecidableEq

/-- One call of the discriminator, writing the `label` entry; under
`hold_out_net` its own parameters are excluded from the graph. -/
def disc_call (frozen : Bool) (td : GradTD) : GradTD :=
  { td with labelGrad :=
      (if frozen then [] else [Net.discriminator]) ++ td.contextGrad }

/-- One call of the adaptation module, writing the adaptation-target entry;
under `torch.no_grad` it is excluded from the graph. -/
def adapt_call (noGrad : Bool) (td : GradTD) : GradTD :=
  { td with contextGrad := if noGrad then [] else [Net.adaptModule] }

/-- `GAN.forward` (ppo/ppo_adapt.py, lines 382-399), returning the modules
reached by the gradients of `d_loss`, of `g_loss`, and of the returned
`d_loss + g_loss`.  Steps: `true_label` from a discriminator call on the
collection-time target; the adaptation module is run under `torch.no_grad`;
`fake_label` from a second discriminator call; then, inside
`hold_out_net(self.discriminator)`, the generator loss is computed from
`self.adaptation_module(tensordict).get("label")` — which re-reads the
`label` entry written by the *previous, unfrozen* discriminator call, since
the adaptation module itself never writes `label`. -/
def GAN_forward (td0 : GradTD) : List Net × List Net × List Net :=
  let td1 := disc_call false td0
  let trueLabel := td1.labelGrad
  let td2 := adapt_call true td1
  let td3 := disc_call false td2
  let fakeLabel := td3.labelGrad
  let dLoss := trueLabel ++ fakeLabel
  let td4 := adapt_call false td3
  let gLoss := td4.labelGrad
  (dLoss, gLoss, dLoss ++ gLoss)

/-- The claim's alternation property over the optimizer steps of one
adaptation-phase update call: every step updates exactly one of the two
modules, consecutive steps update different modules, and both modules get
stepped. -/
def StepsAlternate (steps : List (List Net)) : Prop :=
  (∀ s ∈ steps, s = [Net.discriminator] ∨ s = [Net.adaptModule])
  ∧ List.Chain' (fun a b => a ≠ b) steps
  ∧ [Net.discriminator] ∈ steps ∧ [Net.adaptModule] ∈ steps

instance : DecidablePred StepsAlternate := fun steps => by
  unfold StepsAlternate
  infer_instance

/-- Claim C8, counterexample: in the GAN variant, an adaptation-phase call
with one minibatch per epoch performs no alternating optimizer steps — every
step is a single joint step of the one optimizer holding both modules — and
the discriminator is *not* free of gradient from the generator's adversarial
loss: `g_loss` reaches exactly the discriminator (and the adaptation module
receives no gradient at all, its target entry having been filled under
`torch.no_grad` when the used `label` was produced). -/
theorem gan_no_alternation_cex :
    ¬ StepsAlternate (optSteps (train_adaptation_events 1))
    ∧ Net.discriminator ∈ (GAN_forward ⟨[], []⟩).2.1
    ∧ Net.adaptModule ∉ (GAN_forward ⟨[], []⟩).2.2 := by
  refine ⟨?_, ?_, ?_⟩ <;> decide

/-- Claim C8 (amended): in the adversarial (GAN) variant, each
adaptation-phase minibatch performs exactly one optimizer step, of the
single Adam optimizer holding both the discriminator's and the adaptation
module's parameters, on the combined loss `d_loss + g_loss`; the
discriminator is wrapped in a parameter-freezing context while the
generator's adversarial loss is computed, but the `label` used there was
produced by the discriminator before freezing, so the generator loss still
backpropagates into the discriminator and the adaptation module receives no
gradient from the combined loss. -/
theorem gan_adaptation_single_joint_step (numMinibatches : ℕ) :
    optSteps (train_adaptation_events numMinibatches)
        = List.replicate (4 * numMinibatches) adapt_opt_params
    ∧ (GAN_forward ⟨[], []⟩).2.1 = [Net.discriminator]
    ∧ Net.adaptModule ∉ (GAN_forward ⟨[], []⟩).2.2 := by
  refine ⟨?_, by decide, by decide⟩
  unfold train_adaptation_events optSteps
  induction (4 * numMinibatches) with
  | zero => rfl
  | succ k ih =>
    rw [List.replicate_succ, List.replicate_succ, List.flatten_cons,
      List.filterMap_append, ih]
    rfl

/-! ## SAC critic target (claim C9)

Embedded from `MASACPolicy.train_op` (sac.py, lines 144-153) and
`Critic` (sac.py, lines 235-278). -/

/-- `torch.min(..., dim=-1)` over the stacked per-critic outputs. -/
def listMin (l : List ℚ) : ℚ :=
  match l with
  | [] => 0
  | x :: xs => xs.foldl min x

/-- `Critic.__init__(..., num_critics: int = 2)`: the ensemble size used by
`MASACPolicy.make_critic`, which never overrides the default. -/
def num_critics_default : ℕ := 2

/-- `Critic.forward`: evaluate every critic of the ensemble on the (state,
action) input and stack the results along the last dimension. -/
def critic_forward {σ : Type} (critics : List (σ → ℚ)) (x : σ) : List ℚ :=
  critics.map (fun c => c x)

/-- The bootstrap target of `MASACPolicy.train_op`:
`next_q = torch.min(critic_target(next_state, next_act), dim=-1)`,
`next_q = next_q - log_alpha.exp() * next_logp`,
`target_q = reward + gamma * (1 - next_dones) * next_q`. -/
def sac_target_q {σ : Type} (gamma alphaExp : ℚ) (criticTarget : List (σ → ℚ))
    (reward nextDone nextLogp : ℚ) (nextSA : σ) : ℚ :=
  let next_qs := critic_forward criticTarget nextSA
  let next_q := listMin next_qs
  let next_q2 := next_q - alphaExp * nextLogp
  reward + gamma * (1 - nextDone) * next_q2

/-- The spec's formula: `target_q = reward + gamma * (1 - done) *
(min_i Q_target_i(next_state, next_action) - alpha * next_log_prob)`,
expressed with the ensemble minimum passed explicitly. -/
def spec_target_q (gamma alphaExp reward done logp minQ : ℚ) : ℚ :=
  reward + gamma * (1 - done) * (minQ - alphaExp * logp)

lemma foldl_min_le_init (xs : List ℚ) (x : ℚ) : xs.foldl min x ≤ x := by
  induction xs generalizing x with
  | nil => exact le_refl x
  | cons y ys ih =>
    simp only [List.foldl_cons]
    exact (ih (min x y)).trans (min_le_left x y)

lemma foldl_min_le_mem (xs : List ℚ) (x q : ℚ) (hq : q ∈ xs) :
    xs.foldl min x ≤ q := by
  induction xs generalizing x with
  | nil => cases hq
  | cons y ys ih =>
    simp only [List.foldl_cons]
    rcases List.mem_cons.1 hq with h | h
    · exact (foldl_min_le_init ys (min x y)).trans (h ▸ min_le_right x y)
    · exact ih (min x y) h

lemma foldl_min_mem (xs : List ℚ) (x : ℚ) :
    xs.foldl min x = x ∨ xs.foldl min x ∈ xs := by
  induction xs generalizing x with
  | nil => exact Or.inl rfl
  | cons y ys ih =>
    simp only [List.foldl_cons]
    rcases ih (min x y) with h | h
    · rcases min_choice x y with hc | hc
      · exact Or.inl (h.trans hc)
      · exact Or.inr (List.mem_cons.2 (Or.inl (h.trans hc)))
    · exact Or.inr (List.mem_cons.2 (Or.inr h))

lemma listMin_le (l : List ℚ) : ∀ q ∈ l, listMin l ≤ q := by
  intro q hq
  match l with
  | [] => cases hq
  | x :: xs =>
    unfold listMin
    rcases List.mem_cons.1 hq with h | h
    · exact h ▸ foldl_min_le_init xs x
    · exact foldl_min_le_mem xs x q h

lemma listMin_mem (l : List ℚ) (h : l ≠ []) : listMin l ∈ l := by
  match l with
  | [] => exact absurd rfl h
  | x :: xs =>
    unfold listMin
    rcases foldl_min_mem xs x with hm | hm
    · exact List.mem_cons.2 (Or.inl hm)
    · exact List.mem_cons.2 (Or.inr hm)

/-- Claim C9: in every off-policy critic update, the bootstrap target equals
`reward + gamma * (1 - done) * (min_i Q_target_i(next_state, next_action)
- alpha * next_log_prob)`, where the minimum ranges over the target-critic
ensemble outputs — it is attained by one of them and bounds all of them
below — and the ensemble has the default size 2 (≥ 2 critics). -/
theorem sac_target_uses_min_ensemble (gamma alphaExp reward nextDone nextLogp : ℚ)
    (criticTarget : List (ℚ → ℚ)) (nextSA : ℚ) (h : criticTarget ≠ []) :
    sac_target_q gamma alphaExp criticTarget reward nextDone nextLogp nextSA
        = spec_target_q gamma alphaExp reward nextDone nextLogp
            (listMin (critic_forward criticTarget nextSA))
    ∧ listMin (critic_forward criticTarget nextSA)
        ∈ critic_forward criticTarget nextSA
    ∧ (∀ q ∈ critic_forward criticTarget nextSA,
        listMin (critic_forward criticTarget nextSA) ≤ q)
    ∧ 2 ≤ num_critics_default := by
  refine ⟨rfl, ?_, listMin_le _, le_refl _⟩
  apply listMin_mem
  unfold critic_forward
  simpa using h

/-- Witness for `sac_target_uses_min_ensemble`: a twin-critic ensemble
returning 3 and 5, with `gamma = 1`, `alpha = 1`, `reward = 2`, `done = 0`,
`log_prob = 1`. -/
theorem sac_target_uses_min_ensemble_witness :
    sac_target_q 1 1 [fun _ => 3, fun _ => 5] 2 0 1 0
        = spec_target_q 1 1 2 0 1
            (listMin (critic_forward [fun _ => 3, fun _ => 5] 0))
    ∧ listMin (critic_forward [fun _ => (3 : ℚ), fun _ => 5] 0)
        ∈ critic_forward [fun _ => (3 : ℚ), fun _ => 5] 0
    ∧ (∀ q ∈ critic_forward [fun _ => (3 : ℚ), fun _ => 5] 0,
        listMin (critic_forward [fun _ => (3 : ℚ), fun _ => 5] 0) ≤ q)
    ∧ 2 ≤ num_critics_default :=
  sac_target_uses_min_ensemble 1 1 2 0 1 [fun _ => 3, fun _ => 5] 0
    (List.cons_ne_nil _ _)

end IsaacDrones
